import Mathlib

/-!
Verification of the redundant-computation-elimination pass.

This file shallowly embeds the data model of the CSE service
(`CseLocation`, `Barrier`, the method-effect analysis and the per-method
scan) and of the class renamer's `should_rename`, and proves the frozen
claims about them.

Pointer-typed data (`const DexField*`, `const DexMethod*`) is modelled as
the raw machine word it occupies, a `Nat`.  `CseLocation` and `Barrier`
hold C unions; the union is modelled as that single word, with the two
C accessors as projections of the same word, exactly as the hardware
reads it.
-/

/-- The `CseSpecialLocations` enum from the source, without the `END`
sentinel (which is a count, not a location). -/
inductive CseSpecialLocations where
  | GENERAL_MEMORY_BARRIER
  | ARRAY_COMPONENT_TYPE_INT
  | ARRAY_COMPONENT_TYPE_BYTE
  | ARRAY_COMPONENT_TYPE_CHAR
  | ARRAY_COMPONENT_TYPE_WIDE
  | ARRAY_COMPONENT_TYPE_SHORT
  | ARRAY_COMPONENT_TYPE_OBJECT
  | ARRAY_COMPONENT_TYPE_BOOLEAN
deriving DecidableEq

/-- The numeric value the C enum assigns to each special location. -/
def CseSpecialLocations.toWord : CseSpecialLocations → Nat
  | .GENERAL_MEMORY_BARRIER => 0
  | .ARRAY_COMPONENT_TYPE_INT => 1
  | .ARRAY_COMPONENT_TYPE_BYTE => 2
  | .ARRAY_COMPONENT_TYPE_CHAR => 3
  | .ARRAY_COMPONENT_TYPE_WIDE => 4
  | .ARRAY_COMPONENT_TYPE_SHORT => 5
  | .ARRAY_COMPONENT_TYPE_OBJECT => 6
  | .ARRAY_COMPONENT_TYPE_BOOLEAN => 7

/-- The `CseSpecialLocations::END` sentinel: one past the last special
location value. -/
def cseSpecialLocationsEND : Nat := 8

/-- `CseLocation`: a union of a `const DexField*` and a
`CseSpecialLocations` value, modelled as the single word both union
members occupy.  Special locations are represented as illegal pointer
values (below `END`); a real field identity is a legal pointer, i.e. a
word at or above `cseSpecialLocationsEND`. -/
structure CseLocation where
  field : Nat
deriving DecidableEq

/-- `CseLocation(const DexField* f)`: store the field pointer word. -/
def CseLocation.ofField (f : Nat) : CseLocation := ⟨f⟩

/-- `CseLocation(CseSpecialLocations sl)`: store the enum value in the
union. -/
def CseLocation.ofSpecial (sl : CseSpecialLocations) : CseLocation := ⟨sl.toWord⟩

/-- Reading the union through its `special_location` member: the same
word as `field`. -/
def CseLocation.special_location (l : CseLocation) : Nat := l.field

/-- A real field identity is a legal pointer value, which never falls in
the illegal-pointer range used for the special locations. -/
abbrev isRealFieldId (f : Nat) : Prop := cseSpecialLocationsEND ≤ f

/-- `operator==(CseLocation, CseLocation)`: compare the `field` union
member. -/
def cseLocationEq (a b : CseLocation) : Bool := a.field == b.field

/-- `operator!=(CseLocation, CseLocation)`: negation of `==`. -/
def cseLocationNe (a b : CseLocation) : Bool := !(cseLocationEq a b)

/-- Modelled from the spec: `dexfields_comparator` lives outside this
service; the spec requires only "a stable global ordering" of field
identities, a strict total order, modelled as the order on the field
identity word. -/
def dexfields_comparator (a b : Nat) : Bool := a < b

/-- `operator<(CseLocation, CseLocation)`: specials (words below `END`)
first, ordered by enum value; then fields by the global field order. -/
def cseLocationLt (a b : CseLocation) : Bool :=
  if a.special_location < cseSpecialLocationsEND then
    if b.special_location < cseSpecialLocationsEND then
      a.special_location < b.special_location
    else
      true
  else if b.special_location < cseSpecialLocationsEND then
    false
  else
    dexfields_comparator a.field b.field

/-- `CseLocationHasher`: the field pointer word itself. -/
def CseLocationHasher (l : CseLocation) : Nat := l.field

/-- `Barrier`: an opcode together with a union of a `const DexField*`
and a `const DexMethod*`, the union modelled as the single word `data`
both members occupy. -/
structure Barrier where
  opcode : Nat
  data : Nat
deriving DecidableEq

/-- Reading the barrier union through its `field` member. -/
def Barrier.field (b : Barrier) : Nat := b.data

/-- Reading the barrier union through its `method` member: the same word
as `field`. -/
def Barrier.method (b : Barrier) : Nat := b.data

/-- `operator==(Barrier, Barrier)`: opcodes equal and `field` union
members equal. -/
def barrierEq (a b : Barrier) : Bool :=
  a.opcode == b.opcode && a.field == b.field

/-- `BarrierHasher`: `b.opcode ^ (size_t)b.field`. -/
def BarrierHasher (b : Barrier) : Nat := Nat.xor b.opcode b.field

/-- Every `cseLocationLt` comparison reduces to the order on the stored
word. -/
theorem cseLocationLt_eq_word_lt (a b : CseLocation) :
    cseLocationLt a b = decide (a.field < b.field) := by
  unfold cseLocationLt dexfields_comparator CseLocation.special_location
    cseSpecialLocationsEND
  split
  · split
    · rfl
    · symm
      simp only [decide_eq_true_eq]
      omega
  · split
    · symm
      simp only [decide_eq_false_iff_not, not_lt]
      omega
    · rfl

/-- Claim C1: a `CseLocation` built from a real field identity is never
equal (under `operator==`, in either direction) to a `CseLocation` built
from any special tag. -/
theorem cse_location_special_never_aliases_field
    (f : Nat) (hf : isRealFieldId f) (s : CseSpecialLocations) :
    cseLocationEq (CseLocation.ofField f) (CseLocation.ofSpecial s) = false ∧
    cseLocationEq (CseLocation.ofSpecial s) (CseLocation.ofField f) = false := by
  unfold isRealFieldId cseSpecialLocationsEND at hf
  cases s <;>
    simp only [cseLocationEq, CseLocation.ofField, CseLocation.ofSpecial,
      CseSpecialLocations.toWord, beq_eq_false_iff_ne, ne_eq] <;>
    omega

/-- Witness for claim C1 at a concrete legal field pointer and the
general-barrier tag. -/
theorem cse_location_special_never_aliases_field_witness :
    cseLocationEq (CseLocation.ofField 4096)
      (CseLocation.ofSpecial .GENERAL_MEMORY_BARRIER) = false :=
  (cse_location_special_never_aliases_field 4096 (by decide)
    .GENERAL_MEMORY_BARRIER).1

/-- Claim C2: `operator<` on `CseLocation` is a strict total order
consistent with `operator==`: trichotomy (exactly one of `a < b`,
`b < a`, `a == b` holds), irreflexivity, transitivity, and every special
location orders strictly before every real-field location. -/
theorem cse_location_lt_strict_total_order :
    (∀ a b : CseLocation,
      (cseLocationLt a b = true ∧ cseLocationLt b a = false ∧
        cseLocationEq a b = false) ∨
      (cseLocationLt b a = true ∧ cseLocationLt a b = false ∧
        cseLocationEq a b = false) ∨
      (cseLocationEq a b = true ∧ cseLocationLt a b = false ∧
        cseLocationLt b a = false)) ∧
    (∀ a : CseLocation, cseLocationLt a a = false) ∧
    (∀ a b c : CseLocation, cseLocationLt a b = true →
      cseLocationLt b c = true → cseLocationLt a c = true) ∧
    (∀ (s : CseSpecialLocations) (f : Nat), isRealFieldId f →
      cseLocationLt (CseLocation.ofSpecial s) (CseLocation.ofField f) = true) := by
  refine ⟨?_, ?_, ?_, ?_⟩
  · intro a b
    simp only [cseLocationLt_eq_word_lt, cseLocationEq, decide_eq_true_eq,
      decide_eq_false_iff_not, not_lt, beq_iff_eq, beq_eq_false_iff_ne, ne_eq]
    omega
  · intro a
    simp only [cseLocationLt_eq_word_lt, decide_eq_false_iff_not, not_lt, le_refl]
  · intro a b c hab hbc
    simp only [cseLocationLt_eq_word_lt, decide_eq_true_eq] at hab hbc ⊢
    omega
  · intro s f hf
    unfold isRealFieldId cseSpecialLocationsEND at hf
    cases s <;>
      simp only [cseLocationLt_eq_word_lt, CseLocation.ofField,
        CseLocation.ofSpecial, CseSpecialLocations.toWord, decide_eq_true_eq] <;>
      omega

/-- Witness for claim C2: transitivity and specials-before-fields at
concrete locations. -/
theorem cse_location_lt_strict_total_order_witness :
    cseLocationLt (CseLocation.ofField 9) (CseLocation.ofField 11) = true ∧
    cseLocationLt (CseLocation.ofSpecial .ARRAY_COMPONENT_TYPE_INT)
      (CseLocation.ofField 4096) = true :=
  ⟨cse_location_lt_strict_total_order.2.2.1 (CseLocation.ofField 9)
      (CseLocation.ofField 10) (CseLocation.ofField 11) (by decide) (by decide),
   cse_location_lt_strict_total_order.2.2.2 .ARRAY_COMPONENT_TYPE_INT 4096
      (by decide)⟩

/-- Claim C3: two `Barrier`s are equal exactly when their opcodes and
their field identities are equal; the method identity is read from the
same union word as the field, so it contributes to equality only through
that same comparison and no other component can distinguish two barriers
of the same class. -/
theorem barrier_eq_iff_opcode_and_field (a b : Barrier) :
    (barrierEq a b = true ↔ a.opcode = b.opcode ∧ a.field = b.field) ∧
    (barrierEq a b = true ↔ a.opcode = b.opcode ∧ a.method = b.method) ∧
    (barrierEq a b = true ↔ a = b) := by
  refine ⟨?_, ?_, ?_⟩ <;>
    cases a <;> cases b <;>
      simp only [barrierEq, Barrier.field, Barrier.method, Bool.and_eq_true,
        beq_iff_eq, Barrier.mk.injEq]

/-- Claim C9: hashing is consistent with equality for both hashed key
types: equal `CseLocation`s hash alike under `CseLocationHasher`, and
equal `Barrier`s hash alike under `BarrierHasher`. -/
theorem hashers_consistent_with_equality :
    (∀ a b : CseLocation, cseLocationEq a b = true →
      CseLocationHasher a = CseLocationHasher b) ∧
    (∀ x y : Barrier, barrierEq x y = true →
      BarrierHasher x = BarrierHasher y) := by
  constructor
  · intro a b h
    simp only [cseLocationEq, beq_iff_eq] at h
    simp only [CseLocationHasher, h]
  · intro x y h
    simp only [barrierEq, Bool.and_eq_true, beq_iff_eq, Barrier.field] at h
    simp only [BarrierHasher, Barrier.field, h.1, h.2]

/-- Witness for claim C9 at concrete equal keys. -/
theorem hashers_consistent_with_equality_witness :
    CseLocationHasher (CseLocation.ofField 42) =
      CseLocationHasher (CseLocation.ofField 42) ∧
    BarrierHasher ⟨3, 42⟩ = BarrierHasher ⟨3, 42⟩ :=
  ⟨hashers_consistent_with_equality.1 (CseLocation.ofField 42)
      (CseLocation.ofField 42) (by decide),
   hashers_consistent_with_equality.2 ⟨3, 42⟩ ⟨3, 42⟩ (by decide)⟩

/-- `startsWithChars p s`: `s` begins with pattern `p` (character-wise
comparison, as `strncmp`-style matching inside `strstr`). -/
def startsWithChars : List Char → List Char → Bool
  | [], _ => true
  | _ :: _, [] => false
  | a :: as, b :: bs => a == b && startsWithChars as bs

/-- `strstrContains s p`: C `strstr(s, p) != nullptr`, i.e. `p` occurs
contiguously inside `s` (an empty pattern always matches). -/
def strstrContains : List Char → List Char → Bool
  | [], p => p.isEmpty
  | c :: rest, p => startsWithChars p (c :: rest) || strstrContains rest p

/-- `strrchr(name, c)` followed by stepping one character: the suffix of
`name` strictly after the last occurrence of `c`, or `none` when `c`
does not occur. -/
def afterLastChar (c : Char) : List Char → Option (List Char)
  | [] => none
  | x :: xs =>
    match afterLastChar c xs with
    | some r => some r
    | none => if x = c then some xs else none

/-- The C test `val >= '0' && val <= '9'`. -/
def isAsciiDigitChar (c : Char) : Bool := '0' ≤ c && c ≤ '9'

/-- The anonymous-class test of `should_rename`: the character right
after the last `'$'` of the class name is a decimal digit.  When the
`'$'` is the final character the next C character is the terminating
NUL, which is not a digit. -/
def anonMatch (name : List Char) : Bool :=
  match afterLastChar (Char.ofNat 36) name with
  | some (d :: _) => isAsciiDigitChar d
  | some [] => false
  | none => false

/-- `should_rename` from RenameClasses.cpp.  The class name is its
character list; `can_rename` is an external collaborator
(ReachableClasses), modelled as the boolean it returns for this class.
Order of the source: anonymous-class test, then pre-pattern scan, then
the `can_rename` guard, then the post-pattern scan. -/
def should_rename (name : List Char) (canRename : Bool)
    (prePatterns postPatterns : List (List Char)) : Bool :=
  if anonMatch name then true
  else if prePatterns.any (fun p => strstrContains name p) then true
  else if !canRename then false
  else postPatterns.any (fun p => strstrContains name p)

/-- Claim C10: `should_rename` answers true for every anonymous-looking
name (last `'$'` immediately followed by a digit) and for every
pre-pattern match, both independently of `can_rename`; the `can_rename`
guard is consulted only before the post-pattern scan, so with both early
tests failing and `can_rename` false the answer is false without
reaching the post patterns. -/
theorem should_rename_guard_order (name : List Char) (canRename : Bool)
    (prePatterns postPatterns : List (List Char)) :
    (anonMatch name = true →
      should_rename name canRename prePatterns postPatterns = true) ∧
    (prePatterns.any (fun p => strstrContains name p) = true →
      should_rename name canRename prePatterns postPatterns = true) ∧
    (anonMatch name = false →
      prePatterns.any (fun p => strstrContains name p) = false →
      canRename = false →
      should_rename name canRename prePatterns postPatterns = false) := by
  refine ⟨?_, ?_, ?_⟩
  · intro h
    simp only [should_rename, h, if_true]
  · intro h
    simp only [should_rename, h]
    split <;> rfl
  · intro h1 h2 h3
    simp only [should_rename, h1, h2, h3, Bool.not_false, if_false,
      Bool.false_eq_true, if_true]

/-- Witness for claim C10: the anonymous class name `A$1` is renamed
even though `can_rename` is false. -/
theorem should_rename_guard_order_witness :
    should_rename [Char.ofNat 65, Char.ofNat 36, Char.ofNat 49] false [] [] = true :=
  (should_rename_guard_order [Char.ofNat 65, Char.ofNat 36, Char.ofNat 49]
    false [] []).1 (by decide)

/-- The general-barrier location: the `CseLocation` that invalidates
everything. -/
def generalBarrierLoc : CseLocation :=
  CseLocation.ofSpecial .GENERAL_MEMORY_BARRIER

/-- Modelled from the spec: the facts about an invoked method that
`SharedState` (whose member bodies are not part of this service's
header) consults — whether a body could be resolved for it, and the
effect set the method-effect analysis computed for it. -/
structure RMethodInfo where
  resolvable : Bool
  effect : Finset CseLocation
deriving DecidableEq

/-- Modelled from the spec: the set of locations a method may write —
its computed effect set when its body resolves, and the general-barrier
location (maximally unsafe) when it does not. -/
def methodWrites (mi : RMethodInfo) : Finset CseLocation :=
  if mi.resolvable then mi.effect else {generalBarrierLoc}

/-- Modelled from the spec: a method is classified pure only when its
body resolves and it is in the externally supplied pure-method set. -/
def classifiedPure (mi : RMethodInfo) (inPureSet : Bool) : Bool :=
  mi.resolvable && inPureSet

/-- Modelled from the spec: a method is classified safe only when its
body resolves and it is in the safe-method set. -/
def classifiedSafe (mi : RMethodInfo) (inSafeSet : Bool) : Bool :=
  mi.resolvable && inSafeSet

/-- Modelled from the spec: the instructions
`get_relevant_written_location` distinguishes — field store, array
store, monitor operation, pure computation, and invoke (carrying the
consulted target information and pure-set membership). -/
inductive WInsn where
  | iput (f : Nat)
  | aput (k : CseSpecialLocations)
  | monitorOp
  | pureOp
  | invoke (mi : RMethodInfo) (inPureSet : Bool)
deriving DecidableEq

/-- Modelled from the spec: the set of locations an instruction may
write. -/
def insnWrites : WInsn → Finset CseLocation
  | .iput f => {CseLocation.ofField f}
  | .aput k => {CseLocation.ofSpecial k}
  | .monitorOp => {generalBarrierLoc}
  | .pureOp => ∅
  | .invoke mi inPure =>
    if classifiedPure mi inPure then ∅ else methodWrites mi

/-- Modelled from the spec: `SharedState::get_relevant_written_location`
(declaration only in the header).  It answers which location, if any,
the instruction invalidates among the tracked `read_locations`; an
invoke whose body cannot be resolved conservatively yields the
general-barrier location; a pure invoke writes nothing; any other
invoke whose consulted effect set meets the read locations is a general
barrier. -/
def get_relevant_written_location (insn : WInsn)
    (read_locations : Finset CseLocation) : Option CseLocation :=
  match insn with
  | .iput f =>
    if CseLocation.ofField f ∈ read_locations then
      some (CseLocation.ofField f)
    else none
  | .aput k =>
    if CseLocation.ofSpecial k ∈ read_locations then
      some (CseLocation.ofSpecial k)
    else none
  | .monitorOp => some generalBarrierLoc
  | .pureOp => none
  | .invoke mi inPure =>
    if mi.resolvable = false then some generalBarrierLoc
    else if classifiedPure mi inPure then none
    else if methodWrites mi ∩ read_locations ≠ ∅ then some generalBarrierLoc
    else none

/-- Claim C5: `get_relevant_written_location` handles soundness-risk
inputs without error: an invoke with no resolvable body always resolves
to the general-barrier location, such methods are never classified pure
or safe, and a `none` answer occurs only when the instruction writes no
location intersecting the given read locations. -/
theorem get_relevant_written_location_sound :
    (∀ (mi : RMethodInfo) (inPure : Bool) (rl : Finset CseLocation),
      mi.resolvable = false →
      get_relevant_written_location (.invoke mi inPure) rl =
        some generalBarrierLoc) ∧
    (∀ (mi : RMethodInfo) (inPure inSafe : Bool),
      mi.resolvable = false →
      classifiedPure mi inPure = false ∧ classifiedSafe mi inSafe = false) ∧
    (∀ (insn : WInsn) (rl : Finset CseLocation),
      get_relevant_written_location insn rl = none →
      insnWrites insn ∩ rl = ∅) := by
  refine ⟨?_, ?_, ?_⟩
  · intro mi inPure rl h
    simp only [get_relevant_written_location, h, if_true]
  · intro mi inPure inSafe h
    simp only [classifiedPure, classifiedSafe, h, Bool.false_and, and_self]
  · intro insn rl h
    cases insn with
    | iput f =>
      simp only [get_relevant_written_location, ite_eq_right_iff,
        reduceCtorEq, imp_false] at h
      simp only [insnWrites, Finset.singleton_inter_of_not_mem h]
    | aput k =>
      simp only [get_relevant_written_location, ite_eq_right_iff,
        reduceCtorEq, imp_false] at h
      simp only [insnWrites, Finset.singleton_inter_of_not_mem h]
    | monitorOp =>
      simp only [get_relevant_written_location] at h
      exact absurd h (by simp)
    | pureOp => simp only [insnWrites, Finset.empty_inter]
    | invoke mi inPure =>
      simp only [get_relevant_written_location] at h
      by_cases hr : mi.resolvable = false
      · rw [if_pos hr] at h
        exact absurd h (by simp)
      · rw [if_neg hr] at h
        by_cases hp : classifiedPure mi inPure = true
        · simp only [insnWrites, hp, if_true, Finset.empty_inter]
        · rw [if_neg hp] at h
          by_cases hi : methodWrites mi ∩ rl ≠ ∅
          · rw [if_pos hi] at h
            exact absurd h (by simp)
          · simp only [insnWrites]
            rw [if_neg hp]
            exact not_not.mp hi

/-- Witness for claim C5 at a concrete unresolvable method and a
concrete field store. -/
theorem get_relevant_written_location_sound_witness :
    get_relevant_written_location
        (.invoke ⟨false, ∅⟩ true) {CseLocation.ofField 9} =
      some generalBarrierLoc ∧
    insnWrites (.iput 9) ∩ ({CseLocation.ofField 12} : Finset CseLocation) = ∅ :=
  ⟨get_relevant_written_location_sound.1 ⟨false, ∅⟩ true
      {CseLocation.ofField 9} (by decide),
   get_relevant_written_location_sound.2.2 (.iput 9)
      {CseLocation.ofField 12} (by decide)⟩

/-- Modelled from the spec: the value signature the per-method scan
keys its live-value table by — operation, ordered input value
identities, and the tracked location read (if any). -/
structure Sig where
  op : Nat
  srcs : List Nat
  loc : Option CseLocation
deriving DecidableEq

/-- Modelled from the spec: the dependency set of a table entry — the
tracked location its signature reads, if any. -/
def sigDeps (s : Sig) : Finset CseLocation :=
  match s.loc with
  | some l => {l}
  | none => ∅

/-- Modelled from the spec: a written location `L` invalidates a
dependency set when the set contains `L`, or when `L` is the
general-barrier location (which invalidates everything). -/
def invalidates (L : CseLocation) (deps : Finset CseLocation) : Bool :=
  decide (L ∈ deps) || cseLocationEq L generalBarrierLoc

/-- Modelled from the spec: the instruction shapes the per-method scan
distinguishes — a forwardable computation carrying its signature, a
barrier writing a location, and a pass-through instruction.  Every
instruction carries its identity. -/
inductive ScanInsn where
  | compute (id : Nat) (sg : Sig)
  | barrier (id : Nat) (loc : CseLocation)
  | other (id : Nat)
deriving DecidableEq

/-- The identity of a scan instruction. -/
def insnId : ScanInsn → Nat
  | .compute id _ => id
  | .barrier id _ => id
  | .other id => id

/-- The identities of a whole instruction sequence. -/
def insnIds (p : List ScanInsn) : List Nat := p.map insnId

/-- Modelled from the spec: the per-method scan state — the live-value
table (signature and producing instruction identity; at most one entry
per signature) and the recorded forwards (earlier identity, later
identity). -/
structure ScanState where
  table : List (Sig × Nat)
  forwards : List (Nat × Nat)
deriving DecidableEq

/-- Modelled from the spec: one step of the per-method scan.  A barrier
removes every live entry whose dependency set it invalidates; a
computation either records a forward to a live entry with the identical
signature or inserts a fresh entry; anything else passes through. -/
def scanStep (st : ScanState) (i : ScanInsn) : ScanState :=
  match i with
  | .barrier _ L =>
    ⟨st.table.filter (fun e => !(invalidates L (sigDeps e.1))), st.forwards⟩
  | .compute id sg =>
    match st.table.find? (fun e => e.1 == sg) with
    | some e => ⟨st.table, st.forwards ++ [(e.2, id)]⟩
    | none => ⟨st.table ++ [(sg, id)], st.forwards⟩
  | .other _ => st

/-- Modelled from the spec: the scan over an instruction sequence. -/
def scanRun (p : List ScanInsn) (st : ScanState) : ScanState :=
  p.foldl scanStep st

/-- Modelled from the spec: `Stats::instructions_eliminated` — each
recorded forward eliminates one instruction. -/
def eliminatedCount (st : ScanState) : Nat := st.forwards.length

/-- Claim C6: conservative invalidation — immediately after the scan
processes a barrier instruction writing location `L`, no entry whose
dependency set `L` invalidates is live, on every path (every prior
instruction sequence) and from every starting state; in particular every
such entry created before the barrier is absent. -/
theorem conservative_invalidation (p : List ScanInsn) (st0 : ScanState)
    (id : Nat) (L : CseLocation) (e : Sig × Nat)
    (he : e ∈ (scanRun (p ++ [ScanInsn.barrier id L]) st0).table) :
    invalidates L (sigDeps e.1) = false := by
  unfold scanRun at he
  rw [List.foldl_append] at he
  simp only [List.foldl_cons, List.foldl_nil, scanStep] at he
  simpa using (List.mem_filter.mp he).2

/-- Witness for claim C6: an entry that survives a barrier on an
unrelated field provably does not depend on the written location. -/
theorem conservative_invalidation_witness :
    invalidates (CseLocation.ofField 12)
      (sigDeps ⟨1, [0], some (CseLocation.ofField 4096)⟩) = false :=
  conservative_invalidation
    [ScanInsn.compute 1 ⟨1, [0], some (CseLocation.ofField 4096)⟩]
    ⟨[], []⟩ 2 (CseLocation.ofField 12)
    (⟨1, [0], some (CseLocation.ofField 4096)⟩, 1) (by decide)

/-- The signature of `a = f.get()` on one tracked field. -/
def fieldGetSig : Sig := ⟨1, [0], some (CseLocation.ofField 4096)⟩

/-- Scenario 1: two reads of the same field with nothing in between. -/
def scenarioOne : List ScanInsn :=
  [ScanInsn.compute 1 fieldGetSig, ScanInsn.compute 2 fieldGetSig]

/-- Claim C7: on `a = f.get(); b = f.get();` with no intervening
barrier, the scan records exactly one forward, pairing the second read
with the first, and the eliminated count is 1. -/
theorem scenario_one_single_forward :
    (scanRun scenarioOne ⟨[], []⟩).forwards = [(1, 2)] ∧
    eliminatedCount (scanRun scenarioOne ⟨[], []⟩) = 1 := by
  decide

/-- The identities recorded as the later half of a forward: the
instructions `patch` eliminates. -/
def laterIds (st : ScanState) : List Nat := st.forwards.map (fun f => f.2)

/-- Whether `patch` keeps an instruction: a computation survives exactly
when its identity was not recorded as the later half of a forward;
barriers and pass-through instructions always survive. -/
def keepInsn (fwIds : List Nat) (i : ScanInsn) : Bool :=
  match i with
  | .compute id _ => !(decide (id ∈ fwIds))
  | .barrier _ _ => true
  | .other _ => true

/-- Modelled from the spec: the analyze-and-patch round — `patch`
rewires consumers of each forwarded instruction to the earlier one and
eliminates the forwarded instruction, so the patched program is the
original without the later halves of the recorded forwards. -/
def patchProgram (p : List ScanInsn) : List ScanInsn :=
  p.filter (keepInsn (laterIds (scanRun p ⟨[], []⟩)))

theorem scanRun_cons (i : ScanInsn) (rest : List ScanInsn) (st : ScanState) :
    scanRun (i :: rest) st = scanRun rest (scanStep st i) := rfl

theorem scanStep_compute (st : ScanState) (id : Nat) (sg : Sig) :
    scanStep st (.compute id sg) =
      match st.table.find? (fun e => e.1 == sg) with
      | some e => ⟨st.table, st.forwards ++ [(e.2, id)]⟩
      | none => ⟨st.table ++ [(sg, id)], st.forwards⟩ := rfl

/-- Scanning from a state with pending forwards only appends: the run
from `⟨tbl, fw⟩` reaches the same table and prepends `fw` to the
forwards the run from `⟨tbl, []⟩` records. -/
theorem scanRun_forwards_split (p : List ScanInsn) :
    ∀ (tbl : List (Sig × Nat)) (fw : List (Nat × Nat)),
      scanRun p ⟨tbl, fw⟩ =
        ⟨(scanRun p ⟨tbl, []⟩).table, fw ++ (scanRun p ⟨tbl, []⟩).forwards⟩ := by
  induction p with
  | nil =>
    intro tbl fw
    simp [scanRun]
  | cons i rest ih =>
    intro tbl fw
    cases i with
    | barrier id L =>
      simp only [scanRun_cons, scanStep]
      exact ih (tbl.filter fun e => !(invalidates L (sigDeps e.1))) fw
    | other id =>
      simp only [scanRun_cons, scanStep]
      exact ih tbl fw
    | compute id sg =>
      simp only [scanRun_cons, scanStep_compute]
      cases hfind : tbl.find? (fun e => e.1 == sg) with
      | none =>
        simp only [hfind]
        exact ih (tbl ++ [(sg, id)]) fw
      | some e =>
        simp only [hfind, List.nil_append]
        rw [ih tbl (fw ++ [(e.2, id)]), ih tbl [(e.2, id)]]
        simp [List.append_assoc]

/-- Every identity recorded as the later half of a forward belongs to an
instruction of the scanned program. -/
theorem laterIds_mem_insnIds (p : List ScanInsn) :
    ∀ (tbl : List (Sig × Nat)) (x : Nat),
      x ∈ laterIds (scanRun p ⟨tbl, []⟩) → x ∈ insnIds p := by
  induction p with
  | nil =>
    intro tbl x hx
    simp [scanRun, laterIds] at hx
  | cons i rest ih =>
    intro tbl x hx
    cases i with
    | barrier id L =>
      rw [scanRun_cons] at hx
      simp only [scanStep] at hx
      simp only [insnIds, List.map_cons, List.mem_cons]
      exact Or.inr (ih _ x hx)
    | other id =>
      rw [scanRun_cons] at hx
      simp only [scanStep] at hx
      simp only [insnIds, List.map_cons, List.mem_cons]
      exact Or.inr (ih tbl x hx)
    | compute id sg =>
      rw [scanRun_cons, scanStep_compute] at hx
      simp only [insnIds, List.map_cons, List.mem_cons, insnId]
      cases hfind : tbl.find? (fun e => e.1 == sg) with
      | none =>
        simp only [hfind, List.nil_append] at hx
        exact Or.inr (ih (tbl ++ [(sg, id)]) x hx)
      | some e =>
        simp only [hfind, List.nil_append] at hx
        rw [scanRun_forwards_split rest tbl [(e.2, id)]] at hx
        simp only [laterIds, List.map_append, List.map_cons, List.map_nil,
          List.cons_append, List.nil_append, List.mem_cons] at hx
        cases hx with
        | inl h => exact Or.inl h
        | inr h => exact Or.inr (ih tbl x h)

/-- Rescanning the patched program records no forwards: the core of the
idempotence claim, generalized over the starting table. -/
theorem patched_scan_no_forwards (p : List ScanInsn) :
    ∀ (tbl : List (Sig × Nat)),
      (insnIds p).Nodup →
      (scanRun (p.filter (keepInsn (laterIds (scanRun p ⟨tbl, []⟩))))
        ⟨tbl, []⟩).forwards = [] := by
  induction p with
  | nil =>
    intro tbl hnd
    rfl
  | cons i rest ih =>
    intro tbl hnd
    have hnd' : insnId i ∉ insnIds rest ∧ (insnIds rest).Nodup := by
      simpa only [insnIds, List.map_cons, List.nodup_cons] using hnd
    cases i with
    | other id =>
      have hrun : scanRun (ScanInsn.other id :: rest) ⟨tbl, []⟩ =
          scanRun rest ⟨tbl, []⟩ := rfl
      rw [hrun]
      have hfil : (ScanInsn.other id :: rest).filter
          (keepInsn (laterIds (scanRun rest ⟨tbl, []⟩))) =
          ScanInsn.other id ::
            rest.filter (keepInsn (laterIds (scanRun rest ⟨tbl, []⟩))) := by
        rw [List.filter_cons]
        rfl
      rw [hfil, scanRun_cons]
      exact ih tbl hnd'.2
    | barrier id L =>
      have hrun : scanRun (ScanInsn.barrier id L :: rest) ⟨tbl, []⟩ =
          scanRun rest
            ⟨tbl.filter (fun e => !(invalidates L (sigDeps e.1))), []⟩ := rfl
      rw [hrun]
      have hfil : (ScanInsn.barrier id L :: rest).filter
          (keepInsn (laterIds (scanRun rest
            ⟨tbl.filter (fun e => !(invalidates L (sigDeps e.1))), []⟩))) =
          ScanInsn.barrier id L ::
            rest.filter (keepInsn (laterIds (scanRun rest
              ⟨tbl.filter (fun e => !(invalidates L (sigDeps e.1))), []⟩))) := by
        rw [List.filter_cons]
        rfl
      rw [hfil, scanRun_cons]
      exact ih (tbl.filter (fun e => !(invalidates L (sigDeps e.1)))) hnd'.2
    | compute id sg =>
      cases hfind : tbl.find? (fun e => e.1 == sg) with
      | none =>
        have hrun : scanRun (ScanInsn.compute id sg :: rest) ⟨tbl, []⟩ =
            scanRun rest ⟨tbl ++ [(sg, id)], []⟩ := by
          rw [scanRun_cons, scanStep_compute, hfind]
        rw [hrun]
        have hid : id ∉ laterIds (scanRun rest ⟨tbl ++ [(sg, id)], []⟩) := by
          intro hc
          exact hnd'.1 (laterIds_mem_insnIds rest (tbl ++ [(sg, id)]) id hc)
        have hkeep : keepInsn (laterIds (scanRun rest ⟨tbl ++ [(sg, id)], []⟩))
            (ScanInsn.compute id sg) = true := by
          simp [keepInsn, hid]
        have hfil : (ScanInsn.compute id sg :: rest).filter
            (keepInsn (laterIds (scanRun rest ⟨tbl ++ [(sg, id)], []⟩))) =
            ScanInsn.compute id sg ::
              rest.filter (keepInsn (laterIds
                (scanRun rest ⟨tbl ++ [(sg, id)], []⟩))) := by
          rw [List.filter_cons, hkeep]
          rfl
        rw [hfil, scanRun_cons, scanStep_compute, hfind]
        exact ih (tbl ++ [(sg, id)]) hnd'.2
      | some e =>
        have hrun : scanRun (ScanInsn.compute id sg :: rest) ⟨tbl, []⟩ =
            scanRun rest ⟨tbl, [(e.2, id)]⟩ := by
          simp only [scanRun_cons, scanStep_compute, hfind, List.nil_append]
        have hF : laterIds (scanRun (ScanInsn.compute id sg :: rest)
            ⟨tbl, []⟩) = id :: laterIds (scanRun rest ⟨tbl, []⟩) := by
          rw [hrun, scanRun_forwards_split rest tbl [(e.2, id)]]
          simp [laterIds]
        rw [hF]
        have hdrop : keepInsn (id :: laterIds (scanRun rest ⟨tbl, []⟩))
            (ScanInsn.compute id sg) = false := by
          simp [keepInsn]
        have hfil : (ScanInsn.compute id sg :: rest).filter
            (keepInsn (id :: laterIds (scanRun rest ⟨tbl, []⟩))) =
            rest.filter (keepInsn (id :: laterIds (scanRun rest ⟨tbl, []⟩))) := by
          rw [List.filter_cons, hdrop]
          rfl
        rw [hfil]
        have hcong : rest.filter (keepInsn
            (id :: laterIds (scanRun rest ⟨tbl, []⟩))) =
            rest.filter (keepInsn (laterIds (scanRun rest ⟨tbl, []⟩))) := by
          apply List.filter_congr
          intro j hj
          cases j with
          | compute jd jsg =>
            have hne : jd ≠ id := by
              intro hEq
              apply hnd'.1
              have : insnId (ScanInsn.compute jd jsg) ∈ insnIds rest :=
                List.mem_map_of_mem insnId hj
              simpa [insnId, hEq] using this
            simp [keepInsn, List.mem_cons, hne]
          | barrier _ _ => rfl
          | other _ => rfl
        rw [hcong]
        exact ih tbl hnd'.2

/-- Claim C8: the analysis-plus-patch round is idempotent — rescanning
the patched program records zero forwards, so no further eliminations
are reported. -/
theorem cse_patch_idempotent (p : List ScanInsn)
    (h : (insnIds p).Nodup) :
    (scanRun (patchProgram p) ⟨[], []⟩).forwards = [] ∧
    eliminatedCount (scanRun (patchProgram p) ⟨[], []⟩) = 0 := by
  have h0 := patched_scan_no_forwards p [] h
  refine ⟨h0, ?_⟩
  simp only [eliminatedCount, patchProgram]
  rw [h0]
  rfl

/-- Witness for claim C8: patching the two-reads scenario and rescanning
yields zero forwards. -/
theorem cse_patch_idempotent_witness :
    (scanRun (patchProgram scenarioOne) ⟨[], []⟩).forwards = [] ∧
    eliminatedCount (scanRun (patchProgram scenarioOne) ⟨[], []⟩) = 0 :=
  cse_patch_idempotent scenarioOne (by decide)

/-- Modelled from the spec: the override graph as an edge list; an edge
`(m, n)` says method `n` may execute in place of method `m` at a
virtual call site.  Methods are their identities. -/
def succs (g : List (Nat × Nat)) (m : Nat) : Finset Nat :=
  ((g.filter (fun e => e.1 == m)).map (fun e => e.2)).toFinset

/-- One worklist propagation round over the override graph: keep the
set and add every override-graph successor of a member. -/
def stepR (g : List (Nat × Nat)) (S : Finset Nat) : Finset Nat :=
  S ∪ S.biUnion (succs g)

/-- Every edge target of the graph. -/
def graphTargets (g : List (Nat × Nat)) : Finset Nat :=
  (g.map (fun e => e.2)).toFinset

/-- Enough propagation rounds to reach the fixpoint: the number of
nodes the rounds can ever produce. -/
def reachFuel (g : List (Nat × Nat)) (m : Nat) : Nat :=
  (insert m (graphTargets g)).card

/-- Modelled from the spec: the methods reachable from `m` through the
override graph (`m` itself included), as the fixpoint of the
propagation rounds. -/
def reachableSet (g : List (Nat × Nat)) (m : Nat) : Finset Nat :=
  (stepR g)^[reachFuel g m] {m}

/-- Modelled from the spec: the effect set `init_method_barriers`
publishes at its fixpoint — the union of the direct writes of every
override-reachable method. -/
def methodEffect (g : List (Nat × Nat)) (direct : Nat → Finset CseLocation)
    (m : Nat) : Finset CseLocation :=
  (reachableSet g m).biUnion direct

theorem subset_stepR (g : List (Nat × Nat)) (S : Finset Nat) :
    S ⊆ stepR g S :=
  Finset.subset_union_left

theorem stepR_mono (g : List (Nat × Nat)) {S T : Finset Nat} (h : S ⊆ T) :
    stepR g S ⊆ stepR g T := by
  intro x hx
  rcases Finset.mem_union.mp hx with h1 | h1
  · exact Finset.mem_union_left _ (h h1)
  · obtain ⟨y, hy, hxy⟩ := Finset.mem_biUnion.mp h1
    exact Finset.mem_union_right _ (Finset.mem_biUnion.mpr ⟨y, h hy, hxy⟩)

theorem succs_subset_targets (g : List (Nat × Nat)) (m : Nat) :
    succs g m ⊆ graphTargets g := by
  intro x hx
  simp only [succs, List.mem_toFinset, List.mem_map] at hx
  obtain ⟨a, haf, rfl⟩ := hx
  simp only [graphTargets, List.mem_toFinset, List.mem_map]
  exact ⟨a, (List.mem_filter.mp haf).1, rfl⟩

theorem stepR_subset_closed (g : List (Nat × Nat)) {S U : Finset Nat}
    (hS : S ⊆ U) (hT : graphTargets g ⊆ U) : stepR g S ⊆ U := by
  intro x hx
  rcases Finset.mem_union.mp hx with h1 | h1
  · exact hS h1
  · obtain ⟨y, hy, hxy⟩ := Finset.mem_biUnion.mp h1
    exact hT (succs_subset_targets g y hxy)

theorem iterate_subset_univ (g : List (Nat × Nat)) (m : Nat) :
    ∀ k, (stepR g)^[k] {m} ⊆ insert m (graphTargets g) := by
  intro k
  induction k with
  | zero =>
    simp only [Function.iterate_zero_apply]
    exact Finset.singleton_subset_iff.mpr (Finset.mem_insert_self m _)
  | succ n ih =>
    rw [Function.iterate_succ_apply']
    exact stepR_subset_closed g ih (Finset.subset_insert m _)

theorem iterate_succ_superset (g : List (Nat × Nat)) (m k : Nat) :
    (stepR g)^[k] {m} ⊆ (stepR g)^[k + 1] {m} := by
  rw [Function.iterate_succ_apply']
  exact subset_stepR g _

theorem singleton_subset_iterate (g : List (Nat × Nat)) (m : Nat) :
    ∀ k, ({m} : Finset Nat) ⊆ (stepR g)^[k] {m} := by
  intro k
  induction k with
  | zero => exact subset_refl _
  | succ n ih => exact ih.trans (iterate_succ_superset g m n)

theorem mem_reachableSet_self (g : List (Nat × Nat)) (m : Nat) :
    m ∈ reachableSet g m :=
  Finset.singleton_subset_iff.mp
    (singleton_subset_iterate g m (reachFuel g m))

theorem exists_fix (g : List (Nat × Nat)) (m : Nat) :
    ∃ k, k ≤ reachFuel g m ∧ (stepR g)^[k + 1] {m} = (stepR g)^[k] {m} := by
  by_contra hc
  push_neg at hc
  have hgrow : ∀ k, k ≤ reachFuel g m → k + 1 ≤ ((stepR g)^[k] {m}).card := by
    intro k
    induction k with
    | zero =>
      intro _
      simp
    | succ n ih =>
      intro hk
      have h1 := ih (by omega)
      have hne := hc n (by omega)
      have hss : (stepR g)^[n] {m} ⊂ (stepR g)^[n + 1] {m} :=
        (iterate_succ_superset g m n).ssubset_of_ne (Ne.symm hne)
      have h2 := Finset.card_lt_card hss
      omega
  have h1 := hgrow (reachFuel g m) (le_refl _)
  have h2 : ((stepR g)^[reachFuel g m] {m}).card ≤ reachFuel g m :=
    Finset.card_le_card (iterate_subset_univ g m (reachFuel g m))
  omega

theorem fix_forever (g : List (Nat × Nat)) (m k : Nat)
    (h : (stepR g)^[k + 1] {m} = (stepR g)^[k] {m}) :
    ∀ j, k ≤ j → (stepR g)^[j] {m} = (stepR g)^[k] {m} := by
  intro j hj
  induction j, hj using Nat.le_induction with
  | base => rfl
  | succ n hn ih =>
    rw [Function.iterate_succ_apply', ih]
    calc stepR g ((stepR g)^[k] {m})
        = (stepR g)^[k + 1] {m} :=
          (Function.iterate_succ_apply' (stepR g) k {m}).symm
      _ = (stepR g)^[k] {m} := h

theorem reachableSet_fixed (g : List (Nat × Nat)) (m : Nat) :
    stepR g (reachableSet g m) = reachableSet g m := by
  obtain ⟨k, hk, hfix⟩ := exists_fix g m
  unfold reachableSet
  calc stepR g ((stepR g)^[reachFuel g m] {m})
      = (stepR g)^[reachFuel g m + 1] {m} :=
        (Function.iterate_succ_apply' (stepR g) (reachFuel g m) {m}).symm
    _ = (stepR g)^[k] {m} := fix_forever g m k hfix _ (by omega)
    _ = (stepR g)^[reachFuel g m] {m} :=
        (fix_forever g m k hfix (reachFuel g m) hk).symm

theorem iterate_subset_fixed (g : List (Nat × Nat)) {C : Finset Nat}
    (hC : stepR g C = C) {x : Nat} (hx : x ∈ C) :
    ∀ k, (stepR g)^[k] {x} ⊆ C := by
  intro k
  induction k with
  | zero => exact Finset.singleton_subset_iff.mpr hx
  | succ n ih =>
    rw [Function.iterate_succ_apply']
    exact hC ▸ stepR_mono g ih

theorem reachableSet_trans (g : List (Nat × Nat)) (m n : Nat)
    (h : n ∈ reachableSet g m) :
    reachableSet g n ⊆ reachableSet g m :=
  iterate_subset_fixed g (reachableSet_fixed g m) h (reachFuel g n)

theorem succs_mono_edges (e : Nat × Nat) (g : List (Nat × Nat)) (m : Nat) :
    succs g m ⊆ succs (e :: g) m := by
  intro x hx
  simp only [succs, List.mem_toFinset, List.mem_map] at hx ⊢
  obtain ⟨a, haf, rfl⟩ := hx
  have h1 := List.mem_filter.mp haf
  exact ⟨a, List.mem_filter.mpr ⟨List.mem_cons_of_mem e h1.1, h1.2⟩, rfl⟩

theorem stepR_mono_edges (e : Nat × Nat) (g : List (Nat × Nat))
    (S : Finset Nat) : stepR g S ⊆ stepR (e :: g) S := by
  intro x hx
  rcases Finset.mem_union.mp hx with h1 | h1
  · exact Finset.mem_union_left _ h1
  · obtain ⟨y, hy, hxy⟩ := Finset.mem_biUnion.mp h1
    exact Finset.mem_union_right _
      (Finset.mem_biUnion.mpr ⟨y, hy, succs_mono_edges e g y hxy⟩)

theorem reachable_mono_edges (e : Nat × Nat) (g : List (Nat × Nat))
    (m : Nat) : reachableSet g m ⊆ reachableSet (e :: g) m := by
  have hfix := reachableSet_fixed (e :: g) m
  have hall : ∀ k, (stepR g)^[k] {m} ⊆ reachableSet (e :: g) m := by
    intro k
    induction k with
    | zero =>
      exact Finset.singleton_subset_iff.mpr (mem_reachableSet_self (e :: g) m)
    | succ n ih =>
      rw [Function.iterate_succ_apply']
      exact ((stepR_mono_edges e g _).trans
        (hfix ▸ stepR_mono (e :: g) ih))
  exact hall (reachFuel g m)

/-- Claim C4: at the fixpoint of `init_method_barriers`, every method's
effect set contains its direct writes and the effect set of every
override-reachable method, and adding an override edge to the graph
never shrinks any method's effect set. -/
theorem method_effect_superset_monotone
    (g : List (Nat × Nat)) (direct : Nat → Finset CseLocation) (m : Nat) :
    direct m ⊆ methodEffect g direct m ∧
    (∀ n, n ∈ reachableSet g m →
      methodEffect g direct n ⊆ methodEffect g direct m) ∧
    (∀ e : Nat × Nat, methodEffect g direct m ⊆ methodEffect (e :: g) direct m) := by
  refine ⟨?_, ?_, ?_⟩
  · exact Finset.subset_biUnion_of_mem direct (mem_reachableSet_self g m)
  · intro n hn
    exact Finset.biUnion_subset_biUnion_of_subset_left direct
      (reachableSet_trans g m n hn)
  · intro e
    exact Finset.biUnion_subset_biUnion_of_subset_left direct
      (reachable_mono_edges e g m)

/-- Witness for claim C4: in the one-edge override graph `0 → 1`, the
effect set of the reachable override `1` is contained in the effect set
of `0`. -/
theorem method_effect_superset_monotone_witness :
    methodEffect [(0, 1)]
        (fun n => if n = 1 then {CseLocation.ofField 4096} else ∅) 1 ⊆
      methodEffect [(0, 1)]
        (fun n => if n = 1 then {CseLocation.ofField 4096} else ∅) 0 :=
  (method_effect_superset_monotone [(0, 1)]
    (fun n => if n = 1 then {CseLocation.ofField 4096} else ∅) 0).2.1 1
    (by decide)
